import Mathlib

/-!
Shallow embedding of the ArcTraiders trading ledger (`src/trading.py`):
the row schema constants, the in-memory storage backend (`MemoryBackend`)
and the lifecycle orchestrator (`TradeLedger`), together with proofs about
the claims of the specification.

Modelling conventions:
* A stored row is a `List String` (every value the engine writes is a
  Python `str`; externally injected rows may have any length).
* The mutable `MemoryBackend` object becomes a `MemState` value threaded
  explicitly through each operation.
* `datetime.utcnow().isoformat(timespec="seconds")` and
  `str(uuid.uuid4())` are environment inputs; they are passed in as
  explicit string parameters (`tIso`, `uuidStr`), and `utcnow`/the
  `[:8]` slice are modelled on top of them exactly as the code composes
  them.
* Python dictionaries built by `dict(zip(HEADERS, row))` are read back
  only through `.get(h)` / `.get(h, "")`; both a missing key (`None`)
  and an empty string fail every comparison against the non-empty status
  constants and are falsy in the `or` chains, so records are modelled by
  their positional row, field `j` being `row.getD j ""`.
-/

namespace ArcTraiders

/-- The canonical column schema (`HEADERS` in `trading.py`). -/
def HEADERS : List String :=
  ["offer_id", "status", "item_raw", "item_norm",
   "offerer_id", "offerer_name", "accepter_id", "accepter_name",
   "created_ts", "accepted_ts", "completed_ts",
   "notes", "guild_id", "channel_id"]

def STATUS_OPEN : String := "OPEN"

def STATUS_ACCEPTED : String := "ACCEPTED"

def STATUS_COMPLETED : String := "COMPLETED"

def STATUS_CANCELLED : String := "CANCELLED"

def STATUS_ALLOWED : List String :=
  [STATUS_OPEN, STATUS_ACCEPTED, STATUS_COMPLETED, STATUS_CANCELLED]

/-- A positional row of the store. -/
abbrev Row := List String

/-- `utcnow()` : `isoformat(timespec="seconds") + "Z"`; the isoformat part
is an environment input. -/
def utcnow (tIso : String) : String := tIso ++ "Z"

/-- Python string slicing `s[:n]` (by code point). -/
def strTake (s : String) (n : Nat) : String := String.mk (s.data.take n)

/-- Python `str.upper()`, modelled code point by code point (`Char.toUpper`
agrees with Python on the ASCII range the status values live in). -/
def pyUpper (s : String) : String := String.mk (s.data.map Char.toUpper)

/-- Length-normalization used at `trading.py:483`:
`(row + [""] * (len(HEADERS) - len(row)))[:len(HEADERS)]`. -/
def normRow (r : Row) : Row :=
  (r ++ List.replicate (HEADERS.length - r.length) "").take HEADERS.length

/-- State of a `MemoryBackend`: the two tables, each a list of rows whose
index 0 is the header row. -/
structure MemState where
  active : List Row
  completed : List Row
deriving Repr, DecidableEq

namespace MemoryBackend

/-- `MemoryBackend.__init__`. -/
def init : MemState := ⟨[HEADERS], [HEADERS]⟩

/-- `append_active`. -/
def append_active (s : MemState) (row : Row) : MemState :=
  { s with active := s.active ++ [row] }

/-- `update_active_cell`: `self.active[row_idx_1 - 1][col_idx_0] = value`. -/
def update_active_cell (s : MemState) (rowIdx1 colIdx0 : Nat) (v : String) :
    MemState :=
  let newRow := (s.active.getD (rowIdx1 - 1) []).set colIdx0 v
  { s with active := s.active.set (rowIdx1 - 1) newRow }

/-- `read_active_row`: `dict(zip(HEADERS, row))`, read back per field with
empty-string default (see the modelling note on dictionaries above). -/
def read_active_row (s : MemState) (rowIdx1 : Nat) : Row :=
  normRow (s.active.getD (rowIdx1 - 1) [])

/-- The scan of `find_active_row_index`: `enumerate(active, start=1)`,
`continue` at `i == 1`, return the first `i` with `row and row[0] == offer_id`. -/
def find_aux (oid : String) : Nat → List Row → Option Nat
  | _, [] => none
  | i, r :: rest =>
      if i ≠ 1 ∧ r ≠ [] ∧ r.headD "" = oid then some i
      else find_aux oid (i + 1) rest

/-- `find_active_row_index`. -/
def find_active_row_index (s : MemState) (oid : String) : Option Nat :=
  find_aux oid 1 s.active

/-- `read_active_all`: `self.active[1:]` (records read per field, see note). -/
def read_active_all (s : MemState) : List Row := s.active.drop 1

/-- `append_completed`. -/
def append_completed (s : MemState) (row : Row) : MemState :=
  { s with completed := s.completed ++ [row] }

/-- The loop of `read_active_rows_with_indices`:
`for i in range(2, len(self.active) + 1): out.append((i, self.active[i-1][:]))`. -/
def indexRows (b : Nat) : List Row → List (Nat × Row)
  | [] => []
  | r :: rest => (b, r) :: indexRows (b + 1) rest

/-- `read_active_rows_with_indices`: rows are returned as stored (the copy
`[:]` is the identity in a pure model); no length normalization here. -/
def read_active_rows_with_indices (s : MemState) : List (Nat × Row) :=
  indexRows 2 (s.active.drop 1)

/-- `append_completed_rows`. -/
def append_completed_rows (s : MemState) (rows : List Row) : MemState :=
  { s with completed := s.completed ++ rows }

/-- `sorted(row_indices_1based, reverse=True)`. -/
def sortDescNat (l : List Nat) : List Nat := l.insertionSort (· ≥ ·)

/-- `delete_active_rows`: `for idx in sorted(idxs, reverse=True): del active[idx-1]`. -/
def delete_active_rows (s : MemState) (idxs : List Nat) : MemState :=
  { s with active := (sortDescNat idxs).foldl (fun t i => t.eraseIdx (i - 1)) s.active }

/-- `read_completed_all`: `self.completed[1:]`. -/
def read_completed_all (s : MemState) : List Row := s.completed.drop 1

end MemoryBackend

namespace TradeLedger

open MemoryBackend

/-- `target_statuses = {COMPLETED} (| {CANCELLED} if include_cancelled)`. -/
def targetStatuses (inc : Bool) : List String :=
  if inc then [STATUS_COMPLETED, STATUS_CANCELLED] else [STATUS_COMPLETED]

/-- The row classification of `cleanup`: normalize, read the `status`
field, uppercase, test membership in the target set. -/
def isTarget (inc : Bool) (r : Row) : Bool :=
  (targetStatuses inc).contains (pyUpper ((normRow r).getD 1 ""))

/-- Rows a cleanup pass leaves in place. -/
def isKept (inc : Bool) (r : Row) : Bool := ! isTarget inc r

/-- The 1-based indices (counted from `b`) of the rows a predicate selects:
the shape of `to_delete` built by the `cleanup` loop. -/
def tdOf (p : Row → Bool) (b : Nat) : List Row → List Nat
  | [] => []
  | r :: rest => if p r then b :: tdOf p (b + 1) rest else tdOf p (b + 1) rest

/-- The accumulation loop of `cleanup` over `read_active_rows_with_indices`:
builds `to_move` (normalized rows), `to_delete` (1-based indices) and the
`skipped` count, in iteration order. -/
def cleanupScan (inc : Bool) : List (Nat × Row) → List Row × List Nat × Nat
  | [] => ([], [], 0)
  | (idx, row) :: rest =>
      let res := cleanupScan inc rest
      if isTarget inc row then (normRow row :: res.1, idx :: res.2.1, res.2.2)
      else (res.1, res.2.1, res.2.2 + 1)

/-- `TradeLedger.cleanup`: returns `(moved, deleted, skipped)` and the new
backend state. -/
def cleanup (inc : Bool) (s : MemState) : (Nat × Nat × Nat) × MemState :=
  let res := cleanupScan inc (read_active_rows_with_indices s)
  let s1 := append_completed_rows s res.1
  let s2 := delete_active_rows s1 res.2.1
  ((res.1.length, res.2.1.length, res.2.2), s2)

/-- `_sweep_active_to_completed`: `cleanup(include_cancelled=True)`, counts
discarded (the `try/except` never fires in the in-memory backend, whose
operations are total here). -/
def sweepState (s : MemState) : MemState := (cleanup true s).2

/-- `TradeLedger.offer`.  `uuidStr` stands for `str(uuid.uuid4())`, `tIso`
for the isoformat timestamp.  A `none` first component models the raised
`ValueError("qty must be positive")`; the state at that point is returned
alongside, since the backend object survives the exception. -/
def offer (s : MemState) (offerer_id offerer_name item_raw : String)
    (qty : Int) (notes guild_id channel_id : String)
    (uuidStr tIso : String) : Option String × MemState :=
  let s0 := sweepState s
  if qty ≤ 0 then (none, s0)
  else
    let oid := strTake uuidStr 8
    let now := utcnow tIso
    let row : Row :=
      [oid, STATUS_OPEN, item_raw, item_raw,
       offerer_id, offerer_name, "", "",
       now, "", "",
       notes, guild_id, channel_id]
    let s1 := append_active s0 row
    (some oid, sweepState s1)

/-- `TradeLedger.accept`.  Column indices: `HEADERS.index("status") = 1`,
`accepter_id = 6`, `accepter_name = 7`, `accepted_ts = 9`.  The guard
`if not idx` is falsy for `None` and for `0`. -/
def accept (s : MemState) (offer_id accepter_id accepter_name tIso : String) :
    Bool × MemState :=
  let s0 := sweepState s
  match find_active_row_index s0 offer_id with
  | none => (false, s0)
  | some idx =>
    if idx = 0 then (false, s0)
    else
      let row := read_active_row s0 idx
      if row.getD 1 "" ≠ STATUS_OPEN then (false, s0)
      else
        let now := utcnow tIso
        let s1 := update_active_cell s0 idx 1 STATUS_ACCEPTED
        let s2 := update_active_cell s1 idx 6 accepter_id
        let s3 := update_active_cell s2 idx 7 accepter_name
        let s4 := update_active_cell s3 idx 9 now
        (true, sweepState s4)

/-- `TradeLedger.complete`.  Column indices: `status = 1`,
`completed_ts = 10`.  The updated record (the read dictionary with
`status`/`completed_ts` overwritten, serialized by
`[row.get(h, "") for h in HEADERS]`) is appended to the archive table. -/
def complete (s : MemState) (offer_id tIso : String) : Bool × MemState :=
  let s0 := sweepState s
  match find_active_row_index s0 offer_id with
  | none => (false, s0)
  | some idx =>
    if idx = 0 then (false, s0)
    else
      let row := read_active_row s0 idx
      if ¬ (row.getD 1 "" = STATUS_ACCEPTED ∨ row.getD 1 "" = STATUS_OPEN) then
        (false, s0)
      else
        let now := utcnow tIso
        let s1 := update_active_cell s0 idx 1 STATUS_COMPLETED
        let s2 := update_active_cell s1 idx 10 now
        let row2 := (row.set 1 STATUS_COMPLETED).set 10 now
        let s3 := append_completed s2 row2
        (true, sweepState s3)

/-- Sort key for the in-progress view: `r.get("created_ts", "")`. -/
def createdKey (r : Row) : String := r.getD 8 ""

/-- Sort key for the completed view:
`r.get("completed_ts") or r.get("accepted_ts") or r.get("created_ts") or ""`. -/
def completedKey (r : Row) : String :=
  if r.getD 10 "" ≠ "" then r.getD 10 ""
  else if r.getD 9 "" ≠ "" then r.getD 9 ""
  else r.getD 8 ""

/-- The descending-by-key order underlying `list.sort(key=…, reverse=True)`. -/
def keyRel (key : Row → String) (a b : Row) : Prop := key b ≤ key a

instance (key : Row → String) : DecidableRel (keyRel key) := fun a b =>
  inferInstanceAs (Decidable (key b ≤ key a))

instance (key : Row → String) : IsTotal Row (keyRel key) :=
  ⟨fun a b => (le_total (key b) (key a)).imp id id⟩

instance (key : Row → String) : IsTrans Row (keyRel key) :=
  ⟨fun _ _ _ h h2 => le_trans h2 h⟩

/-- `list.sort(key=…, reverse=True)`: Python's sort is stable, and a stable
descending-by-key sort is computed by insertion sort under `keyRel`. -/
def sortDescBy (key : Row → String) (l : List Row) : List Row :=
  l.insertionSort (keyRel key)

/-- `lst[:n]` guarded by `if n >= 0` (a negative limit leaves the list whole). -/
def truncate (n : Int) (l : List Row) : List Row :=
  if 0 ≤ n then l.take n.toNat else l

/-- `TradeLedger.recent`: the split view and the state after the initial sweep. -/
def recent (s : MemState) (n_active n_completed : Int) :
    (List Row × List Row) × MemState :=
  let s0 := sweepState s
  let active_rows := read_active_all s0
  let in_progress := active_rows.filter
    (fun r => [STATUS_OPEN, STATUS_ACCEPTED].contains (r.getD 1 ""))
  let in_progress := truncate n_active (sortDescBy createdKey in_progress)
  let completed_rows := read_completed_all s0
  let lingering := active_rows.filter
    (fun r => [STATUS_COMPLETED, STATUS_CANCELLED].contains (r.getD 1 ""))
  let completed_all := truncate n_completed
    (sortDescBy completedKey (completed_rows ++ lingering))
  ((in_progress, completed_all), s0)

/-- `TradeLedger.last`: `recent(n_active=n, n_completed=0)["in_progress"]`. -/
def last (s : MemState) (n : Int) : List Row × MemState :=
  let res := recent s n 0
  (res.1.1, res.2)

end TradeLedger

open MemoryBackend TradeLedger

/-- `row and row[0] == offer_id` as a Boolean row predicate. -/
def matchesOid (oid : String) (r : Row) : Bool := r ≠ [] ∧ r.headD "" = oid

/-- The header-preservation invariant of claim C10: index 0 of both tables
is the canonical header row. -/
def headersIntact (s : MemState) : Prop :=
  s.active.head? = some HEADERS ∧ s.completed.head? = some HEADERS

/-- The states a `TradeLedger` running on the in-memory backend can reach
from `MemoryBackend.init` through its engine operations. -/
inductive Reachable : MemState → Prop
  | init : Reachable MemoryBackend.init
  | offer (s : MemState) (a b c d e f u t : String) (q : Int) :
      Reachable s → Reachable (TradeLedger.offer s a b c q d e f u t).2
  | accept (s : MemState) (oid x y t : String) :
      Reachable s → Reachable (TradeLedger.accept s oid x y t).2
  | complete (s : MemState) (oid t : String) :
      Reachable s → Reachable (TradeLedger.complete s oid t).2
  | recent (s : MemState) (na nc : Int) :
      Reachable s → Reachable (TradeLedger.recent s na nc).2
  | cleanup (s : MemState) (inc : Bool) :
      Reachable s → Reachable (TradeLedger.cleanup inc s).2
  | last (s : MemState) (n : Int) :
      Reachable s → Reachable (TradeLedger.last s n).2

theorem HEADERS_length : HEADERS.length = 14 := rfl

theorem normRow_length (r : Row) : (normRow r).length = 14 := by
  simp only [normRow, HEADERS_length, List.length_take, List.length_append,
    List.length_replicate]
  omega

theorem normRow_getD (r : Row) (j : Nat) (hj : j < 14) :
    (normRow r).getD j "" = r.getD j "" := by
  unfold normRow
  rw [HEADERS_length, List.getD_eq_getElem?_getD, List.getD_eq_getElem?_getD,
    List.getElem?_take, if_pos hj]
  rcases Nat.lt_or_ge j r.length with hr | hr
  · rw [List.getElem?_append_left hr]
  · rw [List.getElem?_append_right hr, List.getElem?_replicate,
      List.getElem?_eq_none hr]
    by_cases hlt : j - r.length < 14 - r.length <;> simp [hlt]

theorem normRow_eq_self (r : Row) (h : r.length = 14) : normRow r = r := by
  simp [normRow, HEADERS_length, h]

theorem normRow_ne_nil (r : Row) : normRow r ≠ [] := by
  intro h
  have := normRow_length r
  rw [h] at this
  simp at this

theorem isTarget_eq (inc : Bool) (r : Row) :
    isTarget inc r = (targetStatuses inc).contains (pyUpper (r.getD 1 "")) := by
  rw [isTarget, normRow_getD r 1 (by omega)]

theorem tdOf_length (p : Row → Bool) (b : Nat) (l : List Row) :
    (tdOf p b l).length = (l.filter p).length := by
  induction l generalizing b with
  | nil => rfl
  | cons r rest ih =>
    by_cases hp : p r <;> simp [tdOf, List.filter_cons, hp, ih]

theorem tdOf_mem_le (p : Row → Bool) (b : Nat) (l : List Row) (x : Nat)
    (hx : x ∈ tdOf p b l) : b ≤ x := by
  induction l generalizing b with
  | nil => simp [tdOf] at hx
  | cons r rest ih =>
    by_cases hp : p r
    · simp only [tdOf, hp, if_pos] at hx
      rcases List.mem_cons.mp hx with h | h
      · omega
      · have := ih (b + 1) h; omega
    · simp only [tdOf, hp] at hx
      have := ih (b + 1) (by simpa using hx); omega

theorem tdOf_pairwise (p : Row → Bool) (b : Nat) (l : List Row) :
    (tdOf p b l).Pairwise (· < ·) := by
  induction l generalizing b with
  | nil => simp [tdOf]
  | cons r rest ih =>
    by_cases hp : p r
    · simp only [tdOf, hp, if_pos]
      refine List.pairwise_cons.mpr ⟨fun x hx => ?_, ih (b + 1)⟩
      have := tdOf_mem_le p (b + 1) rest x hx; omega
    · simpa [tdOf, hp] using ih (b + 1)

theorem orderedInsert_of_forall_lt (a : Nat) (l : List Nat)
    (h : ∀ x ∈ l, a < x) : l.orderedInsert (· ≥ ·) a = l ++ [a] := by
  induction l with
  | nil => rfl
  | cons x xs ih =>
    have hax : ¬ a ≥ x := by have := h x (by simp); omega
    simp only [List.orderedInsert, if_neg hax, List.cons_append]
    rw [ih (fun y hy => h y (by simp [hy]))]

theorem sortDescNat_of_pairwise_lt (l : List Nat) (h : l.Pairwise (· < ·)) :
    sortDescNat l = l.reverse := by
  induction l with
  | nil => rfl
  | cons a rest ih =>
    rcases List.pairwise_cons.mp h with ⟨ha, hrest⟩
    show (a :: rest).insertionSort (· ≥ ·) = (a :: rest).reverse
    rw [List.insertionSort]
    rw [show rest.insertionSort (· ≥ ·) = sortDescNat rest from rfl, ih hrest]
    rw [orderedInsert_of_forall_lt a rest.reverse
      (fun x hx => ha x (List.mem_reverse.mp hx))]
    simp

theorem eraseIdx_append_cons (pre : List Row) (r : Row) (t : List Row) :
    (pre ++ r :: t).eraseIdx pre.length = pre ++ t := by
  induction pre with
  | nil => rfl
  | cons x xs ih => simpa [List.eraseIdx] using ih

theorem foldr_erase_tdOf (p : Row → Bool) (data pre : List Row) :
    (tdOf p (pre.length + 1) data).foldr (fun i t => t.eraseIdx (i - 1))
      (pre ++ data) = pre ++ data.filter (fun r => ! p r) := by
  induction data generalizing pre with
  | nil => simp [tdOf]
  | cons r rest ih =>
    have hstep : pre ++ r :: rest = (pre ++ [r]) ++ rest := by simp
    have hlen : (pre ++ [r]).length + 1 = pre.length + 1 + 1 := by simp
    by_cases hp : p r
    · simp only [tdOf, hp, if_pos, List.foldr_cons]
      rw [hstep, ← hlen, ih (pre ++ [r])]
      have : pre.length + 1 - 1 = (pre).length := rfl
      rw [this]
      rw [show (pre ++ [r]) ++ rest.filter (fun r => ! p r) =
        pre ++ r :: rest.filter (fun r => ! p r) by simp]
      rw [eraseIdx_append_cons]
      simp [List.filter_cons, hp]
    · simp only [tdOf, hp, if_neg, Bool.false_eq_true, not_false_iff]
      rw [hstep, ← hlen, ih (pre ++ [r])]
      simp [List.filter_cons, hp]

theorem cleanupScan_indexRows (inc : Bool) (data : List Row) (b : Nat) :
    cleanupScan inc (indexRows b data) =
      ((data.filter (isTarget inc)).map normRow, tdOf (isTarget inc) b data,
       (data.filter (isKept inc)).length) := by
  induction data generalizing b with
  | nil => rfl
  | cons r rest ih =>
    by_cases hp : isTarget inc r <;>
      simp [indexRows, cleanupScan, tdOf, List.filter_cons, hp, ih, isKept]

/-- Full characterization of `TradeLedger.cleanup` on a table with a first
row `h` (the header) and data rows `data`: target rows are appended to the
archive in their normalized form, deleted from the active table, and the
counts are the sizes of the two classes. -/
theorem cleanup_eq (inc : Bool) (s : MemState) (h : Row) (data : List Row)
    (hs : s.active = h :: data) :
    cleanup inc s =
      (((data.filter (isTarget inc)).length, (data.filter (isTarget inc)).length,
        (data.filter (isKept inc)).length),
       ⟨h :: data.filter (isKept inc),
        s.completed ++ (data.filter (isTarget inc)).map normRow⟩) := by
  have hread : read_active_rows_with_indices s = indexRows 2 data := by
    simp [read_active_rows_with_indices, hs]
  have hscan := cleanupScan_indexRows inc data 2
  have hsort : sortDescNat (tdOf (isTarget inc) 2 data) =
      (tdOf (isTarget inc) 2 data).reverse :=
    sortDescNat_of_pairwise_lt _ (tdOf_pairwise _ 2 data)
  have herase : (tdOf (isTarget inc) 2 data).foldr
      (fun i t => t.eraseIdx (i - 1)) (h :: data) =
      h :: data.filter (isKept inc) := by
    have h0 := foldr_erase_tdOf (isTarget inc) data [h]
    simpa using h0
  simp only [cleanup, hread, hscan, append_completed_rows, delete_active_rows,
    hsort, hs, List.foldl_reverse, herase, tdOf_length, List.length_map]

theorem sweepState_eq (s : MemState) (h : Row) (data : List Row)
    (hs : s.active = h :: data) :
    sweepState s = ⟨h :: data.filter (isKept true),
      s.completed ++ (data.filter (isTarget true)).map normRow⟩ := by
  simp [sweepState, cleanup_eq true s h data hs]

theorem filter_isTarget_isKept (inc : Bool) (l : List Row) :
    (l.filter (isKept inc)).filter (isTarget inc) = [] := by
  induction l with
  | nil => rfl
  | cons r rest ih =>
    by_cases hp : isTarget inc r <;> simp [List.filter_cons, isKept, hp, ih]

theorem filter_isKept_idem (inc : Bool) (l : List Row) :
    (l.filter (isKept inc)).filter (isKept inc) = l.filter (isKept inc) := by
  induction l with
  | nil => rfl
  | cons r rest ih =>
    by_cases hp : isTarget inc r <;> simp [List.filter_cons, isKept, hp, ih]

theorem length_filter_partition (p : Row → Bool) (l : List Row) :
    (l.filter p).length + (l.filter (fun r => ! p r)).length = l.length := by
  induction l with
  | nil => rfl
  | cons r rest ih =>
    by_cases hp : p r <;> simp [List.filter_cons, hp] <;> omega

/-- C1: after `cleanup(include_cancelled=True)` no row left in the active
table has a status that uppercases to COMPLETED or CANCELLED; every such
data row previously present has been appended to the archive table with
identical field values (all 14 schema fields); and
`moved + skipped` equals the number of data rows originally in the active
table. -/
theorem cleanup_include_cancelled_correct (s : MemState) (data : List Row)
    (hs : s.active = HEADERS :: data) :
    (∀ r ∈ (cleanup true s).2.active, isTarget true r = false) ∧
    (∀ r ∈ data, isTarget true r = true →
       normRow r ∈ (cleanup true s).2.completed ∧
       ∀ j, j < 14 → (normRow r).getD j "" = r.getD j "") ∧
    (cleanup true s).1.1 + (cleanup true s).1.2.2 = data.length := by
  have hc := cleanup_eq true s HEADERS data hs
  rw [hc]
  refine ⟨?_, ?_, ?_⟩
  · intro r hr
    simp only [List.mem_cons] at hr
    rcases hr with rfl | hr
    · decide
    · have := (List.mem_filter.mp hr).2
      simpa [isKept] using this
  · intro r hr ht
    refine ⟨?_, fun j hj => normRow_getD r j hj⟩
    exact List.mem_append_right _
      (List.mem_map_of_mem normRow (List.mem_filter.mpr ⟨hr, ht⟩))
  · have := length_filter_partition (isTarget true) data
    simpa [isKept] using this

theorem cleanup_include_cancelled_correct_witness :
    (cleanup true ⟨[HEADERS, ["x1", "COMPLETED"], ["x2", "OPEN"],
        ["x3", "CANCELLED"]], [HEADERS]⟩).1.1 +
      (cleanup true ⟨[HEADERS, ["x1", "COMPLETED"], ["x2", "OPEN"],
        ["x3", "CANCELLED"]], [HEADERS]⟩).1.2.2 = 3 :=
  (cleanup_include_cancelled_correct
    ⟨[HEADERS, ["x1", "COMPLETED"], ["x2", "OPEN"], ["x3", "CANCELLED"]],
     [HEADERS]⟩
    [["x1", "COMPLETED"], ["x2", "OPEN"], ["x3", "CANCELLED"]] rfl).2.2

/-- C4: running `cleanup` twice in succession with no intervening
mutation yields, on the second run, moved 0, deleted 0 and
skipped = the number of data rows then in the active table, and leaves
the state unchanged (idempotence). -/
theorem cleanup_idempotent (b : Bool) (s : MemState) (h : Row)
    (data : List Row) (hs : s.active = h :: data) :
    cleanup b (cleanup b s).2 =
      ((0, 0, (cleanup b s).2.active.length - 1), (cleanup b s).2) := by
  have hc := cleanup_eq b s h data hs
  have hc2 := cleanup_eq b ⟨h :: data.filter (isKept b),
      s.completed ++ (data.filter (isTarget b)).map normRow⟩ h
      (data.filter (isKept b)) rfl
  rw [hc, hc2]
  simp only [filter_isTarget_isKept, filter_isKept_idem, List.length_nil,
    List.map_nil, List.append_nil, List.length_cons]
  simp

theorem indexRows_map_snd (b : Nat) (l : List Row) :
    (indexRows b l).map Prod.snd = l := by
  induction l generalizing b with
  | nil => rfl
  | cons r rest ih => simp [indexRows, ih]

theorem headD_eq_getD_zero (r : Row) : r.headD "" = r.getD 0 "" := by
  cases r <;> rfl

theorem map_normRow_of_wf (l : List Row) (hwf : ∀ r ∈ l, r.length = 14) :
    l.map normRow = l := by
  induction l with
  | nil => rfl
  | cons r rest ih =>
    rw [List.map_cons, normRow_eq_self r (hwf r (by simp)),
      ih (fun x hx => hwf x (by simp [hx]))]

theorem find_aux_ne_one (oid : String) (l : List Row) (b i : Nat)
    (h : find_aux oid b l = some i) : i ≠ 1 ∧ b ≤ i := by
  induction l generalizing b with
  | nil => simp [find_aux] at h
  | cons r rest ih =>
    rw [find_aux] at h
    by_cases hcond : b ≠ 1 ∧ r ≠ [] ∧ r.headD "" = oid
    · rw [if_pos hcond] at h
      cases h
      exact ⟨hcond.1, le_refl _⟩
    · rw [if_neg hcond] at h
      have := ih (b + 1) h
      exact ⟨this.1, by omega⟩

theorem find_aux_none (oid : String) (l : List Row) (b : Nat)
    (h : ∀ r ∈ l, ¬ (r ≠ [] ∧ r.headD "" = oid)) :
    find_aux oid b l = none := by
  induction l generalizing b with
  | nil => rfl
  | cons r rest ih =>
    rw [find_aux, if_neg, ih (b + 1) (fun x hx => h x (by simp [hx]))]
    intro hc
    exact h r (by simp) ⟨hc.2.1, hc.2.2⟩

theorem find_aux_some_spec (oid : String) (l : List Row) (b i : Nat)
    (hb : 2 ≤ b) (h : find_aux oid b l = some i) :
    ∃ k, k < l.length ∧ i = b + k ∧ l.getD k [] ≠ [] ∧
      (l.getD k []).headD "" = oid := by
  induction l generalizing b i with
  | nil => simp [find_aux] at h
  | cons r rest ih =>
    rw [find_aux] at h
    by_cases hcond : b ≠ 1 ∧ r ≠ [] ∧ r.headD "" = oid
    · rw [if_pos hcond] at h
      cases h
      exact ⟨0, by simp, by omega, hcond.2.1, hcond.2.2⟩
    · rw [if_neg hcond] at h
      obtain ⟨k, hk, hi, hne, hhead⟩ := ih (b + 1) i (by omega) h
      refine ⟨k + 1, by simp [hk], by omega, ?_, ?_⟩
      · simpa using hne
      · simpa using hhead

theorem find_aux_unique (oid : String) (l : List Row) (r0 : Row) (b : Nat)
    (hb : 2 ≤ b) (hcount : l.countP (matchesOid oid) = 1)
    (hmem : r0 ∈ l) (hm : matchesOid oid r0 = true) :
    ∃ k, k < l.length ∧ l.getD k [] = r0 ∧
      find_aux oid b l = some (b + k) := by
  induction l generalizing b with
  | nil => simp at hmem
  | cons r rest ih =>
    by_cases hr : matchesOid oid r = true
    · have hcr : rest.countP (matchesOid oid) = 0 := by
        rw [List.countP_cons_of_pos _ _ hr] at hcount
        omega
      have hr0 : r0 = r := by
        rcases List.mem_cons.mp hmem with h | h
        · exact h
        · exact absurd hm (by simpa using List.countP_eq_zero.mp hcr r0 h)
      refine ⟨0, by simp, by simp [hr0], ?_⟩
      rw [find_aux, if_pos]
      · simp
      · have hm2 := hr
        simp only [matchesOid, decide_eq_true_eq] at hm2
        exact ⟨by omega, hm2.1, hm2.2⟩
    · have hr0ne : r0 ≠ r := fun he => hr (he ▸ hm)
      have hmem2 : r0 ∈ rest := by
        rcases List.mem_cons.mp hmem with h | h
        · exact absurd h hr0ne
        · exact h
      have hcount2 : rest.countP (matchesOid oid) = 1 := by
        rwa [List.countP_cons_of_neg _ _ hr] at hcount
      obtain ⟨k, hk, hget, hfind⟩ := ih (b + 1) (by omega) hcount2 hmem2
      refine ⟨k + 1, by simp [hk], by simpa using hget, ?_⟩
      rw [find_aux, if_neg, hfind]
      · exact congrArg some (by omega)
      · intro hc
        refine hr ?_
        simp only [matchesOid, decide_eq_true_eq]
        exact ⟨hc.2.1, hc.2.2⟩

theorem find_table (oid : String) (h : Row) (d : List Row) :
    find_aux oid 1 (h :: d) = find_aux oid 2 d := by
  rw [find_aux, if_neg]
  simp

theorem read_active_row_table (s : MemState) (h : Row) (d : List Row)
    (hs : s.active = h :: d) (k : Nat) :
    read_active_row s (2 + k) = normRow (d.getD k []) := by
  rw [read_active_row, hs]
  have h21 : 2 + k - 1 = k + 1 := by omega
  rw [h21]
  show normRow ((h :: d).getD (k + 1) []) = normRow (d.getD k [])
  rw [List.getD_cons_succ]

theorem getD_mem_of_lt (d : List Row) (k : Nat) (hk : k < d.length) :
    d.getD k [] ∈ d := by
  have he : d.getD k [] = d[k] := by
    rw [List.getD_eq_getElem?_getD, List.getElem?_eq_getElem hk]
    rfl
  rw [he]
  exact List.getElem_mem hk

/-- Case analysis for the `find_active_row_index` call the transition
operations make right after their initial sweep: either nothing matches,
or the first matching data row of the swept table is returned, and reading
it back gives its normalized form. -/
theorem find_sweep_cases (s : MemState) (data : List Row) (oid : String)
    (hs : s.active = HEADERS :: data)
    (hwf : ∀ r ∈ data, r.length = 14) :
    find_active_row_index (sweepState s) oid = none ∨
    ∃ i k, find_active_row_index (sweepState s) oid = some i ∧ i ≠ 0 ∧
      k < (data.filter (isKept true)).length ∧
      read_active_row (sweepState s) i = (data.filter (isKept true)).getD k [] ∧
      (data.filter (isKept true)).getD k [] ∈ data ∧
      ((data.filter (isKept true)).getD k []).getD 0 "" = oid := by
  have hsw := sweepState_eq s HEADERS data hs
  have hswa : (sweepState s).active = HEADERS :: data.filter (isKept true) := by
    rw [hsw]
  have hfind0 : find_active_row_index (sweepState s) oid
      = find_aux oid 2 (data.filter (isKept true)) := by
    rw [find_active_row_index, hswa]
    exact find_table oid HEADERS _
  cases hf : find_aux oid 2 (data.filter (isKept true)) with
  | none => exact Or.inl (by rw [hfind0, hf])
  | some i =>
    obtain ⟨k, hk, hi, hne, hhead⟩ :=
      find_aux_some_spec oid (data.filter (isKept true)) 2 i (le_refl 2) hf
    have hmemd := getD_mem_of_lt _ k hk
    have hmem : (data.filter (isKept true)).getD k [] ∈ data :=
      List.mem_of_mem_filter hmemd
    refine Or.inr ⟨i, k, by rw [hfind0, hf], by omega, hk, ?_, hmem, ?_⟩
    · rw [hi, read_active_row_table (sweepState s) HEADERS _ hswa k,
        normRow_eq_self _ (hwf _ hmem)]
    · rw [← headD_eq_getD_zero]
      exact hhead

/-- C3: `accept` and `complete` on an offer id that is absent from the
active table, or every record of which has a status that forbids the
requested transition, return the boolean `false` (no exception: the
embedded operations are total) and modify no record's field values — the
resulting state is exactly the sweep of the pre-state, which only moves
terminal rows unchanged from the active to the archive table. -/
theorem accept_complete_soft_false (s : MemState) (data : List Row)
    (oid aid aname tIso : String)
    (hs : s.active = HEADERS :: data)
    (hwf : ∀ r ∈ data, r.length = 14) :
    ((∀ r ∈ data, r.getD 0 "" = oid → r.getD 1 "" ≠ STATUS_OPEN) →
       accept s oid aid aname tIso = (false, sweepState s)) ∧
    ((∀ r ∈ data, r.getD 0 "" = oid →
        r.getD 1 "" ≠ STATUS_OPEN ∧ r.getD 1 "" ≠ STATUS_ACCEPTED) →
       complete s oid tIso = (false, sweepState s)) ∧
    (sweepState s).active = HEADERS :: data.filter (isKept true) ∧
    (sweepState s).completed = s.completed ++ data.filter (isTarget true) := by
  have hsw := sweepState_eq s HEADERS data hs
  have hmapn : (data.filter (isTarget true)).map normRow
      = data.filter (isTarget true) :=
    map_normRow_of_wf _ (fun r hr => hwf r (List.mem_of_mem_filter hr))
  refine ⟨?_, ?_, by rw [hsw], by rw [hsw, hmapn]⟩
  · intro hforbid
    rcases find_sweep_cases s data oid hs hwf with hf | ⟨i, k, hf, hi0, hk, hread, hmem, hoid⟩
    · simp only [accept, hf]
    · have hstat := hforbid _ hmem hoid
      simp only [accept, hf, if_neg hi0, hread, if_pos hstat]
  · intro hforbid
    rcases find_sweep_cases s data oid hs hwf with hf | ⟨i, k, hf, hi0, hk, hread, hmem, hoid⟩
    · simp only [complete, hf]
    · have hstat := hforbid _ hmem hoid
      have hguard : ¬ (((data.filter (isKept true)).getD k []).getD 1 ""
          = STATUS_ACCEPTED ∨
          ((data.filter (isKept true)).getD k []).getD 1 "" = STATUS_OPEN) :=
        fun hor => hor.elim (fun ha => hstat.2 ha) (fun ho => hstat.1 ho)
      simp only [complete, hf, if_neg hi0, hread, if_pos hguard]

theorem accept_complete_soft_false_witness :
    (accept ⟨[HEADERS, ["n1", "COMPLETED", "it", "it", "u1", "Doug", "u2",
        "Ava", "T1", "T2", "T3", "", "", ""]], [HEADERS]⟩ "missing" "u9"
        "Zoe" "T9" =
      (false, sweepState ⟨[HEADERS, ["n1", "COMPLETED", "it", "it", "u1",
        "Doug", "u2", "Ava", "T1", "T2", "T3", "", "", ""]], [HEADERS]⟩)) ∧
    (complete ⟨[HEADERS, ["n1", "COMPLETED", "it", "it", "u1", "Doug", "u2",
        "Ava", "T1", "T2", "T3", "", "", ""]], [HEADERS]⟩ "n1" "T9" =
      (false, sweepState ⟨[HEADERS, ["n1", "COMPLETED", "it", "it", "u1",
        "Doug", "u2", "Ava", "T1", "T2", "T3", "", "", ""]], [HEADERS]⟩)) := by
  have h := accept_complete_soft_false
    ⟨[HEADERS, ["n1", "COMPLETED", "it", "it", "u1", "Doug", "u2", "Ava",
      "T1", "T2", "T3", "", "", ""]], [HEADERS]⟩
    [["n1", "COMPLETED", "it", "it", "u1", "Doug", "u2", "Ava", "T1", "T2",
      "T3", "", "", ""]]
    "missing" "u9" "Zoe" "T9" rfl (by decide)
  have h2 := accept_complete_soft_false
    ⟨[HEADERS, ["n1", "COMPLETED", "it", "it", "u1", "Doug", "u2", "Ava",
      "T1", "T2", "T3", "", "", ""]], [HEADERS]⟩
    [["n1", "COMPLETED", "it", "it", "u1", "Doug", "u2", "Ava", "T1", "T2",
      "T3", "", "", ""]]
    "n1" "u9" "Zoe" "T9" rfl (by decide)
  exact ⟨h.1 (by decide), h2.2.1 (by decide)⟩

theorem getD_set_self {α : Type} (l : List α) (k : Nat) (a d : α)
    (hk : k < l.length) : (l.set k a).getD k d = a := by
  induction l generalizing k with
  | nil => simp at hk
  | cons x xs ih =>
    cases k with
    | zero => rfl
    | succ k2 =>
      have hk2 : k2 < xs.length := by simpa using hk
      simpa using ih k2 hk2

theorem getD_set_ne {α : Type} (l : List α) (j k : Nat) (a d : α)
    (hjk : j ≠ k) : (l.set k a).getD j d = l.getD j d := by
  induction l generalizing j k with
  | nil => simp
  | cons x xs ih =>
    cases k with
    | zero =>
      cases j with
      | zero => exact absurd rfl hjk
      | succ j2 => simp
    | succ k2 =>
      cases j with
      | zero => simp
      | succ j2 => simpa using ih j2 k2 (by omega)

theorem countP_filter_le {α : Type} (p q : α → Bool) (l : List α) :
    (l.filter q).countP p ≤ l.countP p := by
  induction l with
  | nil => simp
  | cons x xs ih =>
    by_cases hq : q x
    · by_cases hp : p x <;> simp [List.filter_cons, hq, hp] <;> omega
    · by_cases hp : p x <;> simp [List.filter_cons, hq, hp] <;> omega

theorem update_active_cell_table (s : MemState) (h : Row) (d : List Row)
    (k : Nat) (hs : s.active = h :: d) (c : Nat) (v : String) :
    update_active_cell s (2 + k) c v =
      ⟨h :: d.set k ((d.getD k []).set c v), s.completed⟩ := by
  have h21 : 2 + k - 1 = k + 1 := by omega
  simp only [update_active_cell, hs, h21, List.getD_cons_succ,
    List.set_cons_succ]

/-- C5: `accept` on the unique active record with the given offer id, when
its status is OPEN, returns `true`, sets status ACCEPTED, sets the
accepter fields, stamps `accepted_ts` with the current time (which is at
least `created_ts` whenever the clock has not gone backwards, per the
hypothesis `hts`), and leaves every other field of the record — and every
other record's fields — unchanged. -/
theorem accept_open_success (s : MemState) (data : List Row) (r0 : Row)
    (oid aid aname tIso : String)
    (hs : s.active = HEADERS :: data)
    (hwf : ∀ r ∈ data, r.length = 14)
    (hcount : data.countP (matchesOid oid) = 1)
    (hmem : r0 ∈ data) (hm : r0.getD 0 "" = oid)
    (hopen : r0.getD 1 "" = STATUS_OPEN)
    (hts : r0.getD 8 "" ≤ utcnow tIso) :
    ∃ k r1,
      r1 = (((r0.set 1 STATUS_ACCEPTED).set 6 aid).set 7 aname).set 9
        (utcnow tIso) ∧
      k < (data.filter (isKept true)).length ∧
      (data.filter (isKept true)).getD k [] = r0 ∧
      accept s oid aid aname tIso =
        (true, ⟨HEADERS :: (data.filter (isKept true)).set k r1,
                s.completed ++ data.filter (isTarget true)⟩) ∧
      r1.getD 1 "" = STATUS_ACCEPTED ∧ r1.getD 6 "" = aid ∧
      r1.getD 7 "" = aname ∧ r1.getD 9 "" = utcnow tIso ∧
      (∀ j, j ≠ 1 → j ≠ 6 → j ≠ 7 → j ≠ 9 → r1.getD j "" = r0.getD j "") ∧
      r1.getD 8 "" ≤ r1.getD 9 "" := by
  have hlen : r0.length = 14 := hwf r0 hmem
  have hmapn : (data.filter (isTarget true)).map normRow
      = data.filter (isTarget true) :=
    map_normRow_of_wf _ (fun r hr => hwf r (List.mem_of_mem_filter hr))
  have hsw2 : sweepState s = ⟨HEADERS :: data.filter (isKept true),
      s.completed ++ data.filter (isTarget true)⟩ := by
    rw [sweepState_eq s HEADERS data hs, hmapn]
  have hkept : isKept true r0 = true := by
    simp only [isKept, Bool.not_eq_true']
    rw [isTarget_eq, hopen]
    decide
  have hmemd : r0 ∈ data.filter (isKept true) :=
    List.mem_filter.mpr ⟨hmem, hkept⟩
  have hr0ne : r0 ≠ [] := by
    intro he
    rw [he] at hlen
    simp at hlen
  have hmatch : matchesOid oid r0 = true := by
    simp only [matchesOid, decide_eq_true_eq]
    exact ⟨hr0ne, by rw [headD_eq_getD_zero]; exact hm⟩
  have hcountd : (data.filter (isKept true)).countP (matchesOid oid) = 1 := by
    have hle := countP_filter_le (matchesOid oid) (isKept true) data
    have hpos : 0 < (data.filter (isKept true)).countP (matchesOid oid) :=
      List.countP_pos_iff.mpr ⟨r0, hmemd, hmatch⟩
    omega
  obtain ⟨k, hk, hget, hfaux⟩ :=
    find_aux_unique oid (data.filter (isKept true)) r0 2 (le_refl 2)
      hcountd hmemd hmatch
  set d := data.filter (isKept true) with hd
  set C := s.completed ++ data.filter (isTarget true) with hC
  set r1 := (((r0.set 1 STATUS_ACCEPTED).set 6 aid).set 7 aname).set 9
    (utcnow tIso) with hr1
  have hlen1 : (r0.set 1 STATUS_ACCEPTED).length = 14 := by simp [hlen]
  have hlen6 : ((r0.set 1 STATUS_ACCEPTED).set 6 aid).length = 14 := by
    simp [hlen]
  have hlen7 : (((r0.set 1 STATUS_ACCEPTED).set 6 aid).set 7 aname).length
      = 14 := by simp [hlen]
  have hr1stat : r1.getD 1 "" = STATUS_ACCEPTED := by
    rw [hr1, getD_set_ne _ 1 9 _ _ (by omega), getD_set_ne _ 1 7 _ _
      (by omega), getD_set_ne _ 1 6 _ _ (by omega),
      getD_set_self _ 1 _ _ (by omega)]
  have hr1aid : r1.getD 6 "" = aid := by
    rw [hr1, getD_set_ne _ 6 9 _ _ (by omega), getD_set_ne _ 6 7 _ _
      (by omega), getD_set_self _ 6 _ _ (by omega)]
  have hr1an : r1.getD 7 "" = aname := by
    rw [hr1, getD_set_ne _ 7 9 _ _ (by omega),
      getD_set_self _ 7 _ _ (by omega)]
  have hr1ts : r1.getD 9 "" = utcnow tIso := by
    rw [hr1, getD_set_self _ 9 _ _ (by omega)]
  have hframe : ∀ j, j ≠ 1 → j ≠ 6 → j ≠ 7 → j ≠ 9 →
      r1.getD j "" = r0.getD j "" := by
    intro j h1 h6 h7 h9
    rw [hr1, getD_set_ne _ j 9 _ _ h9, getD_set_ne _ j 7 _ _ h7,
      getD_set_ne _ j 6 _ _ h6, getD_set_ne _ j 1 _ _ h1]
  have hfindL : find_active_row_index ⟨HEADERS :: d, C⟩ oid
      = some (2 + k) := by
    rw [find_active_row_index]
    show find_aux oid 1 (HEADERS :: d) = some (2 + k)
    rw [find_table, hfaux]
  have hi0 : ¬ (2 + k = 0) := by omega
  have hread : read_active_row (⟨HEADERS :: d, C⟩ : MemState) (2 + k)
      = r0 := by
    rw [read_active_row_table _ HEADERS d rfl k, hget,
      normRow_eq_self _ hlen]
  have hguard : ¬ (r0.getD 1 "" ≠ STATUS_OPEN) := by
    rw [hopen]
    simp
  have hu1 : update_active_cell ⟨HEADERS :: d, C⟩ (2 + k) 1 STATUS_ACCEPTED
      = ⟨HEADERS :: d.set k (r0.set 1 STATUS_ACCEPTED), C⟩ := by
    rw [update_active_cell_table _ HEADERS d k rfl 1 STATUS_ACCEPTED, hget]
  have hu2 : update_active_cell
      ⟨HEADERS :: d.set k (r0.set 1 STATUS_ACCEPTED), C⟩ (2 + k) 6 aid
      = ⟨HEADERS :: d.set k ((r0.set 1 STATUS_ACCEPTED).set 6 aid), C⟩ := by
    rw [update_active_cell_table _ HEADERS _ k rfl 6 aid,
      getD_set_self _ k _ _ hk, List.set_set]
  have hu3 : update_active_cell
      ⟨HEADERS :: d.set k ((r0.set 1 STATUS_ACCEPTED).set 6 aid), C⟩
      (2 + k) 7 aname
      = ⟨HEADERS :: d.set k (((r0.set 1 STATUS_ACCEPTED).set 6 aid).set 7
          aname), C⟩ := by
    rw [update_active_cell_table _ HEADERS _ k rfl 7 aname,
      getD_set_self _ k _ _ hk, List.set_set]
  have hu4 : update_active_cell
      ⟨HEADERS :: d.set k (((r0.set 1 STATUS_ACCEPTED).set 6 aid).set 7
        aname), C⟩ (2 + k) 9 (utcnow tIso)
      = ⟨HEADERS :: d.set k r1, C⟩ := by
    rw [update_active_cell_table _ HEADERS _ k rfl 9 (utcnow tIso),
      getD_set_self _ k _ _ hk, List.set_set, hr1]
  have hr1kept : isKept true r1 = true := by
    simp only [isKept, Bool.not_eq_true']
    rw [isTarget_eq, hr1stat]
    decide
  have hkeepall : (d.set k r1).filter (isKept true) = d.set k r1 :=
    List.filter_eq_self.mpr (fun x hx => by
      rcases List.mem_or_eq_of_mem_set hx with h | h
      · exact List.of_mem_filter h
      · rw [h]; exact hr1kept)
  have htargetnil : (d.set k r1).filter (isTarget true) = [] := by
    rw [List.filter_eq_nil_iff]
    intro x hx
    rcases List.mem_or_eq_of_mem_set hx with h | h
    · have := List.of_mem_filter h
      simp only [isKept, Bool.not_eq_true'] at this
      simp [this]
    · rw [h]
      have := hr1kept
      simp only [isKept, Bool.not_eq_true'] at this
      simp [this]
  have hfinal : sweepState ⟨HEADERS :: d.set k r1, C⟩
      = ⟨HEADERS :: d.set k r1, C⟩ := by
    rw [sweepState_eq _ HEADERS _ rfl, hkeepall, htargetnil]
    simp
  have hacc : accept s oid aid aname tIso
      = (true, ⟨HEADERS :: d.set k r1, C⟩) := by
    simp only [accept, hsw2]
    simp only [hfindL]
    rw [if_neg hi0, hread, if_neg hguard, hu1, hu2, hu3, hu4, hfinal]
  refine ⟨k, r1, rfl, hk, hget, hacc, hr1stat, hr1aid, hr1an, hr1ts,
    hframe, ?_⟩
  rw [hframe 8 (by omega) (by omega) (by omega) (by omega), hr1ts]
  exact hts

theorem accept_open_success_witness :
    ∃ k r1,
      r1 = ((((["a1", "OPEN", "it", "it", "u1", "Doug", "", "", "T1Z", "",
        "", "", "", ""] : Row).set 1 STATUS_ACCEPTED).set 6 "u2").set 7
        "Ava").set 9 (utcnow "T1") ∧
      k < ([[("a1" : String), "OPEN", "it", "it", "u1", "Doug", "", "",
        "T1Z", "", "", "", "", ""]].filter (isKept true)).length ∧
      ([[("a1" : String), "OPEN", "it", "it", "u1", "Doug", "", "", "T1Z",
        "", "", "", "", ""]].filter (isKept true)).getD k [] =
        ["a1", "OPEN", "it", "it", "u1", "Doug", "", "", "T1Z", "", "", "",
         "", ""] ∧
      accept ⟨[HEADERS, ["a1", "OPEN", "it", "it", "u1", "Doug", "", "",
          "T1Z", "", "", "", "", ""]], [HEADERS]⟩ "a1" "u2" "Ava" "T1" =
        (true, ⟨HEADERS :: ([[("a1" : String), "OPEN", "it", "it", "u1",
          "Doug", "", "", "T1Z", "", "", "", "", ""]].filter
            (isKept true)).set k r1,
          [HEADERS] ++ [[("a1" : String), "OPEN", "it", "it", "u1", "Doug",
            "", "", "T1Z", "", "", "", "", ""]].filter (isTarget true)⟩) ∧
      r1.getD 1 "" = STATUS_ACCEPTED ∧ r1.getD 6 "" = "u2" ∧
      r1.getD 7 "" = "Ava" ∧ r1.getD 9 "" = utcnow "T1" ∧
      (∀ j, j ≠ 1 → j ≠ 6 → j ≠ 7 → j ≠ 9 →
        r1.getD j "" = (["a1", "OPEN", "it", "it", "u1", "Doug", "", "",
          "T1Z", "", "", "", "", ""] : Row).getD j "") ∧
      r1.getD 8 "" ≤ r1.getD 9 "" :=
  accept_open_success
    ⟨[HEADERS, ["a1", "OPEN", "it", "it", "u1", "Doug", "", "", "T1Z", "",
      "", "", "", ""]], [HEADERS]⟩
    [["a1", "OPEN", "it", "it", "u1", "Doug", "", "", "T1Z", "", "", "", "",
      ""]]
    ["a1", "OPEN", "it", "it", "u1", "Doug", "", "", "T1Z", "", "", "", "",
      ""]
    "a1" "u2" "Ava" "T1" rfl (by decide) (by decide) (by decide)
    (by decide) (by decide) (le_of_eq rfl)

theorem filter_set_of_kept (p : Row → Bool) (l : List Row) (k : Nat)
    (a : Row) (hall : ∀ x ∈ l, p x = true) (ha : p a = false)
    (hk : k < l.length) : (l.set k a).filter p = l.eraseIdx k := by
  induction l generalizing k with
  | nil => simp at hk
  | cons x xs ih =>
    cases k with
    | zero =>
      simp only [List.set_cons_zero, List.filter_cons, ha, List.eraseIdx_cons_zero]
      simp only [Bool.false_eq_true, if_neg, ite_false]
      exact List.filter_eq_self.mpr (fun y hy => hall y (by simp [hy]))
    | succ k2 =>
      simp only [List.set_cons_succ, List.filter_cons, hall x (by simp),
        List.eraseIdx_cons_succ, if_pos]
      rw [ih k2 (fun y hy => hall y (by simp [hy])) (by simpa using hk)]

theorem filter_set_of_target (p : Row → Bool) (l : List Row) (k : Nat)
    (a : Row) (hall : ∀ x ∈ l, p x = false) (ha : p a = true)
    (hk : k < l.length) : (l.set k a).filter p = [a] := by
  induction l generalizing k with
  | nil => simp at hk
  | cons x xs ih =>
    cases k with
    | zero =>
      simp only [List.set_cons_zero, List.filter_cons, ha, if_pos]
      rw [List.filter_eq_nil_iff.mpr (fun y hy => by simp [hall y (by simp [hy])])]
    | succ k2 =>
      simp only [List.set_cons_succ, List.filter_cons, hall x (by simp)]
      simp only [Bool.false_eq_true, if_neg, ite_false]
      exact ih k2 (fun y hy => hall y (by simp [hy])) (by simpa using hk)

theorem drop_one_append (l m : List Row) (hl : l ≠ []) :
    (l ++ m).drop 1 = l.drop 1 ++ m := by
  cases l with
  | nil => exact absurd rfl hl
  | cons x xs => simp

/-- C2: `complete` on the unique active record with the given offer id,
when its status is OPEN or ACCEPTED, returns `true`, produces the record
with status COMPLETED and `completed_ts` stamped with the current time (at
least the prior timestamps under the clock hypotheses), leaves its other
fields unchanged, appends that record to the archive table immediately
(twice, in fact: once directly and once more by the trailing sweep, which
also removes the row from the active table), and the record is readable
from `recent`'s completed list without any explicit `cleanup` call. -/
theorem complete_success (s : MemState) (data : List Row) (r0 : Row)
    (oid tIso : String)
    (hs : s.active = HEADERS :: data)
    (hwf : ∀ r ∈ data, r.length = 14)
    (hcount : data.countP (matchesOid oid) = 1)
    (hmem : r0 ∈ data) (hm : r0.getD 0 "" = oid)
    (hstat : r0.getD 1 "" = STATUS_OPEN ∨ r0.getD 1 "" = STATUS_ACCEPTED)
    (htsc : r0.getD 8 "" ≤ utcnow tIso)
    (htsa : r0.getD 9 "" ≤ utcnow tIso)
    (hcne : s.completed ≠ []) :
    ∃ k r1,
      r1 = (r0.set 1 STATUS_COMPLETED).set 10 (utcnow tIso) ∧
      complete s oid tIso =
        (true, ⟨HEADERS :: (data.filter (isKept true)).eraseIdx k,
          (s.completed ++ data.filter (isTarget true)) ++ [r1] ++ [r1]⟩) ∧
      r1.getD 1 "" = STATUS_COMPLETED ∧
      r1.getD 10 "" = utcnow tIso ∧
      (∀ j, j ≠ 1 → j ≠ 10 → r1.getD j "" = r0.getD j "") ∧
      r1.getD 8 "" ≤ r1.getD 10 "" ∧ r1.getD 9 "" ≤ r1.getD 10 "" ∧
      r1 ∈ (complete s oid tIso).2.completed ∧
      r1 ∈ (recent (complete s oid tIso).2 (-1) (-1)).1.2 := by
  have hlen : r0.length = 14 := hwf r0 hmem
  have hmapn : (data.filter (isTarget true)).map normRow
      = data.filter (isTarget true) :=
    map_normRow_of_wf _ (fun r hr => hwf r (List.mem_of_mem_filter hr))
  have hsw2 : sweepState s = ⟨HEADERS :: data.filter (isKept true),
      s.completed ++ data.filter (isTarget true)⟩ := by
    rw [sweepState_eq s HEADERS data hs, hmapn]
  have hkept : isKept true r0 = true := by
    simp only [isKept, Bool.not_eq_true']
    rcases hstat with h | h <;> rw [isTarget_eq, h] <;> decide
  have hmemd : r0 ∈ data.filter (isKept true) :=
    List.mem_filter.mpr ⟨hmem, hkept⟩
  have hr0ne : r0 ≠ [] := by
    intro he
    rw [he] at hlen
    simp at hlen
  have hmatch : matchesOid oid r0 = true := by
    simp only [matchesOid, decide_eq_true_eq]
    exact ⟨hr0ne, by rw [headD_eq_getD_zero]; exact hm⟩
  have hcountd : (data.filter (isKept true)).countP (matchesOid oid) = 1 := by
    have hle := countP_filter_le (matchesOid oid) (isKept true) data
    have hpos : 0 < (data.filter (isKept true)).countP (matchesOid oid) :=
      List.countP_pos_iff.mpr ⟨r0, hmemd, hmatch⟩
    omega
  obtain ⟨k, hk, hget, hfaux⟩ :=
    find_aux_unique oid (data.filter (isKept true)) r0 2 (le_refl 2)
      hcountd hmemd hmatch
  set d := data.filter (isKept true) with hd
  set C := s.completed ++ data.filter (isTarget true) with hC
  set r1 := (r0.set 1 STATUS_COMPLETED).set 10 (utcnow tIso) with hr1
  have hlen1 : (r0.set 1 STATUS_COMPLETED).length = 14 := by simp [hlen]
  have hlenr1 : r1.length = 14 := by simp [hr1, hlen]
  have hr1stat : r1.getD 1 "" = STATUS_COMPLETED := by
    rw [hr1, getD_set_ne _ 1 10 _ _ (by omega),
      getD_set_self _ 1 _ _ (by omega)]
  have hr1ts : r1.getD 10 "" = utcnow tIso := by
    rw [hr1, getD_set_self _ 10 _ _ (by omega)]
  have hframe : ∀ j, j ≠ 1 → j ≠ 10 → r1.getD j "" = r0.getD j "" := by
    intro j h1 h10
    rw [hr1, getD_set_ne _ j 10 _ _ h10, getD_set_ne _ j 1 _ _ h1]
  have hfindL : find_active_row_index ⟨HEADERS :: d, C⟩ oid
      = some (2 + k) := by
    rw [find_active_row_index]
    show find_aux oid 1 (HEADERS :: d) = some (2 + k)
    rw [find_table, hfaux]
  have hi0 : ¬ (2 + k = 0) := by omega
  have hread : read_active_row (⟨HEADERS :: d, C⟩ : MemState) (2 + k)
      = r0 := by
    rw [read_active_row_table _ HEADERS d rfl k, hget,
      normRow_eq_self _ hlen]
  have hor : r0.getD 1 "" = STATUS_ACCEPTED ∨ r0.getD 1 "" = STATUS_OPEN :=
    hstat.elim Or.inr Or.inl
  have hu1 : update_active_cell ⟨HEADERS :: d, C⟩ (2 + k) 1 STATUS_COMPLETED
      = ⟨HEADERS :: d.set k (r0.set 1 STATUS_COMPLETED), C⟩ := by
    rw [update_active_cell_table _ HEADERS d k rfl 1 STATUS_COMPLETED, hget]
  have hu2 : update_active_cell
      ⟨HEADERS :: d.set k (r0.set 1 STATUS_COMPLETED), C⟩ (2 + k) 10
      (utcnow tIso)
      = ⟨HEADERS :: d.set k r1, C⟩ := by
    rw [update_active_cell_table _ HEADERS _ k rfl 10 (utcnow tIso),
      getD_set_self _ k _ _ hk, List.set_set, hr1]
  have hr1target : isTarget true r1 = true := by
    rw [isTarget_eq, hr1stat]
    decide
  have hdkept : ∀ x ∈ d, isKept true x = true := fun x hx =>
    List.of_mem_filter hx
  have hr1keptfalse : isKept true r1 = false := by
    simp [isKept, hr1target]
  have hkeeps : (d.set k r1).filter (isKept true) = d.eraseIdx k :=
    filter_set_of_kept _ d k r1 hdkept hr1keptfalse hk
  have hdtarget : ∀ x ∈ d, isTarget true x = false := fun x hx => by
    have := List.of_mem_filter hx
    simpa [isKept, Bool.not_eq_true'] using this
  have htargets : (d.set k r1).filter (isTarget true) = [r1] :=
    filter_set_of_target _ d k r1 hdtarget hr1target hk
  have hfinal : sweepState ⟨HEADERS :: d.set k r1, C ++ [r1]⟩
      = ⟨HEADERS :: d.eraseIdx k, C ++ [r1] ++ [r1]⟩ := by
    rw [sweepState_eq _ HEADERS _ rfl, hkeeps, htargets]
    simp [normRow_eq_self r1 hlenr1]
  have hcomp : complete s oid tIso
      = (true, ⟨HEADERS :: d.eraseIdx k, C ++ [r1] ++ [r1]⟩) := by
    simp only [complete, hsw2]
    simp only [hfindL]
    rw [if_neg hi0, hread, if_neg (not_not_intro hor), hu1, hu2]
    show (true, sweepState (append_completed ⟨HEADERS :: d.set k r1, C⟩
      ((r0.set 1 STATUS_COMPLETED).set 10 (utcnow tIso)))) = _
    rw [show append_completed ⟨HEADERS :: d.set k r1, C⟩
      ((r0.set 1 STATUS_COMPLETED).set 10 (utcnow tIso))
      = ⟨HEADERS :: d.set k r1, C ++ [r1]⟩ from rfl, hfinal]
  have hmemc : r1 ∈ (complete s oid tIso).2.completed := by
    rw [hcomp]
    simp
  refine ⟨k, r1, rfl, hcomp, hr1stat, hr1ts, hframe, ?_, ?_, hmemc, ?_⟩
  · rw [hframe 8 (by omega) (by omega), hr1ts]
    exact htsc
  · rw [hframe 9 (by omega) (by omega), hr1ts]
    exact htsa
  · rw [hcomp]
    have hkeeps2 : (d.eraseIdx k).filter (isKept true) = d.eraseIdx k :=
      List.filter_eq_self.mpr (fun x hx =>
        hdkept x (List.mem_of_mem_eraseIdx hx))
    have htargets2 : (d.eraseIdx k).filter (isTarget true) = [] :=
      List.filter_eq_nil_iff.mpr (fun x hx => by
        simp [hdtarget x (List.mem_of_mem_eraseIdx hx)])
    have hsw3 : sweepState ⟨HEADERS :: d.eraseIdx k, C ++ [r1] ++ [r1]⟩
        = ⟨HEADERS :: d.eraseIdx k, C ++ [r1] ++ [r1]⟩ := by
      rw [sweepState_eq _ HEADERS _ rfl, hkeeps2, htargets2]
      simp
    simp only [recent, hsw3]
    rw [truncate, if_neg (by decide)]
    rw [sortDescBy, (List.perm_insertionSort (keyRel completedKey) _).mem_iff]
    refine List.mem_append_left _ ?_
    show r1 ∈ read_completed_all ⟨HEADERS :: d.eraseIdx k, C ++ [r1] ++ [r1]⟩
    rw [read_completed_all]
    show r1 ∈ (C ++ [r1] ++ [r1]).drop 1
    rw [drop_one_append _ _ (by
      intro he
      rw [hC] at he
      rcases List.append_eq_nil.mp he with ⟨h1, _⟩
      rcases List.append_eq_nil.mp h1 with ⟨h2, _⟩
      exact hcne h2)]
    simp

theorem complete_success_witness :
    (complete ⟨[HEADERS, ["c1", "ACCEPTED", "it", "it", "u1", "Doug", "u2",
        "Ava", "T1Z", "T1Z", "", "", "", ""]], [HEADERS]⟩ "c1" "T1").1
      = true := by
  obtain ⟨k, r1, _, hEq, _⟩ := complete_success
    ⟨[HEADERS, ["c1", "ACCEPTED", "it", "it", "u1", "Doug", "u2", "Ava",
      "T1Z", "T1Z", "", "", "", ""]], [HEADERS]⟩
    [["c1", "ACCEPTED", "it", "it", "u1", "Doug", "u2", "Ava", "T1Z",
      "T1Z", "", "", "", ""]]
    ["c1", "ACCEPTED", "it", "it", "u1", "Doug", "u2", "Ava", "T1Z", "T1Z",
      "", "", "", ""]
    "c1" "T1" rfl (by decide) (by decide) (by decide) (by decide)
    (Or.inr (by decide)) (le_of_eq rfl) (le_of_eq rfl) (by decide)
  rw [hEq]

theorem strTake_length (s : String) (n : Nat) :
    (strTake s n).length = min n s.length := by
  cases s with
  | mk l => simp [strTake, String.length]

theorem utcnow_ne_empty (tIso : String) : utcnow tIso ≠ "" := by
  cases tIso with
  | mk l =>
    intro he
    have hd : l ++ [('Z' : Char)] = ([] : List Char) := congrArg String.data he
    simp at hd

/-- C9: a valid `offer` (positive quantity) returns the 8-character token
cut from the fresh uuid string, and appends to the active table a record
with that token as `offer_id`, status OPEN, `item_norm` equal to
`item_raw`, empty accepter fields and `accepted_ts`/`completed_ts`, and a
non-empty `created_ts` of the form `isoformat + "Z"`. -/
theorem offer_valid (s : MemState) (data : List Row)
    (offid oname item notes gid cid uuidStr tIso : String) (qty : Int)
    (hq : 0 < qty) (hs : s.active = HEADERS :: data)
    (hu : uuidStr.length = 36) :
    ∃ tok row,
      tok = strTake uuidStr 8 ∧ tok.length = 8 ∧
      row = ([tok, STATUS_OPEN, item, item, offid, oname, "", "",
        utcnow tIso, "", "", notes, gid, cid] : Row) ∧
      offer s offid oname item qty notes gid cid uuidStr tIso =
        (some tok, ⟨HEADERS :: (data.filter (isKept true) ++ [row]),
          s.completed ++ (data.filter (isTarget true)).map normRow⟩) ∧
      row.getD 0 "" = tok ∧ row.getD 1 "" = STATUS_OPEN ∧
      row.getD 3 "" = row.getD 2 "" ∧
      row.getD 6 "" = "" ∧ row.getD 7 "" = "" ∧ row.getD 9 "" = "" ∧
      row.getD 10 "" = "" ∧ row.getD 8 "" = utcnow tIso ∧
      row.getD 8 "" ≠ "" ∧ (∃ t, row.getD 8 "" = t ++ "Z") := by
  set tok := strTake uuidStr 8 with htok
  set row : Row := [tok, STATUS_OPEN, item, item, offid, oname, "", "",
    utcnow tIso, "", "", notes, gid, cid] with hrow
  have hsw2 := sweepState_eq s HEADERS data hs
  have hnq : ¬ (qty ≤ 0) := by omega
  have hrowkept : isKept true row = true := by
    simp only [isKept, Bool.not_eq_true']
    rw [isTarget_eq]
    show (targetStatuses true).contains (pyUpper STATUS_OPEN) = false
    decide
  have hdkept : ∀ x ∈ data.filter (isKept true), isKept true x = true :=
    fun x hx => List.of_mem_filter hx
  have hfk : (data.filter (isKept true) ++ [row]).filter (isKept true)
      = data.filter (isKept true) ++ [row] :=
    List.filter_eq_self.mpr (fun x hx => by
      rcases List.mem_append.mp hx with h | h
      · exact hdkept x h
      · rw [List.mem_singleton.mp h]
        exact hrowkept)
  have hft : (data.filter (isKept true) ++ [row]).filter (isTarget true)
      = [] :=
    List.filter_eq_nil_iff.mpr (fun x hx => by
      rcases List.mem_append.mp hx with h | h
      · simp [hdkept x h |> fun hh => by
          simpa [isKept, Bool.not_eq_true'] using hh]
      · rw [List.mem_singleton.mp h]
        have := hrowkept
        simp only [isKept, Bool.not_eq_true'] at this
        simp [this])
  have hfinal : sweepState ⟨HEADERS :: (data.filter (isKept true) ++ [row]),
      s.completed ++ (data.filter (isTarget true)).map normRow⟩
      = ⟨HEADERS :: (data.filter (isKept true) ++ [row]),
         s.completed ++ (data.filter (isTarget true)).map normRow⟩ := by
    rw [sweepState_eq _ HEADERS _ rfl, hfk, hft]
    simp
  have happ : append_active ⟨HEADERS :: data.filter (isKept true),
      s.completed ++ (data.filter (isTarget true)).map normRow⟩ row
      = ⟨HEADERS :: (data.filter (isKept true) ++ [row]),
         s.completed ++ (data.filter (isTarget true)).map normRow⟩ := by
    simp [MemoryBackend.append_active]
  have hoffer : offer s offid oname item qty notes gid cid uuidStr tIso
      = (some tok, ⟨HEADERS :: (data.filter (isKept true) ++ [row]),
          s.completed ++ (data.filter (isTarget true)).map normRow⟩) := by
    simp only [offer, hsw2]
    rw [if_neg hnq]
    rw [show (strTake uuidStr 8) = tok from rfl]
    rw [happ, hfinal]
  refine ⟨tok, row, rfl, ?_, rfl, hoffer, rfl, rfl, rfl, rfl, rfl, rfl,
    rfl, rfl, ?_, ⟨tIso, rfl⟩⟩
  · rw [htok, strTake_length, hu]
    decide
  · show utcnow tIso ≠ ""
    exact utcnow_ne_empty tIso

theorem offer_valid_witness :
    (offer ⟨[HEADERS], [HEADERS]⟩ "u1" "Doug" "Atlas Chassis" 1 "" "" ""
      "0123456789abcdef0123456789abcdef0123" "T7").1 = some "01234567" := by
  obtain ⟨tok, row, htok, hlen8, hrow, hEq, _⟩ := offer_valid
    ⟨[HEADERS], [HEADERS]⟩ [] "u1" "Doug" "Atlas Chassis" "" "" ""
    "0123456789abcdef0123456789abcdef0123" "T7" 1 (by decide) rfl rfl
  rw [hEq, htok]
  rfl

theorem orderedInsert_filter_key (key : Row → String) (v : String)
    (a : Row) (l : List Row) :
    (l.orderedInsert (keyRel key) a).filter (fun r => key r = v)
      = if key a = v then a :: l.filter (fun r => key r = v)
        else l.filter (fun r => key r = v) := by
  induction l with
  | nil =>
    by_cases hv : key a = v <;> simp [List.orderedInsert, List.filter, hv]
  | cons b bs ih =>
    by_cases hr : keyRel key a b
    · rw [List.orderedInsert_of_le _ _ hr]
      by_cases hv : key a = v <;> simp [List.filter_cons, hv]
    · show ((if keyRel key a b then a :: b :: bs
          else b :: bs.orderedInsert (keyRel key) a).filter
            (fun r => key r = v)) = _
      rw [if_neg hr, List.filter_cons, ih]
      by_cases hv : key a = v
      · have hbv : ¬ (key b = v) := by
          have hlt : key a < key b := lt_of_not_le (by
            simpa [keyRel] using hr)
          rw [hv] at hlt
          exact fun hbv2 => absurd hbv2 (ne_of_gt hlt)
        by_cases hd : (key b = v : Bool) = true
        · exact absurd (by simpa using hd) hbv
        · simp only [hv, if_pos]
          rw [if_neg hd, List.filter_cons, if_neg hd]
      · simp only [hv, if_neg, Bool.false_eq_true, ite_false,
          List.filter_cons]

theorem sortDescBy_stable (key : Row → String) (l : List Row) (v : String) :
    (sortDescBy key l).filter (fun r => key r = v)
      = l.filter (fun r => key r = v) := by
  induction l with
  | nil => rfl
  | cons a rest ih =>
    show ((sortDescBy key rest).orderedInsert (keyRel key) a).filter _ = _
    rw [orderedInsert_filter_key, List.filter_cons]
    by_cases hv : key a = v
    · rw [if_pos hv, ih]
      simp [hv]
    · rw [if_neg hv, ih]
      simp [hv]

theorem sortDescBy_sorted (key : Row → String) (l : List Row) :
    List.Sorted (keyRel key) (sortDescBy key l) :=
  List.sorted_insertionSort (keyRel key) l

theorem truncate_sorted (key : Row → String) (n : Int) (l : List Row)
    (h : List.Sorted (keyRel key) l) :
    List.Sorted (keyRel key) (truncate n l) := by
  rw [truncate]
  by_cases hn : 0 ≤ n
  · rw [if_pos hn]
    exact List.Pairwise.sublist (List.take_sublist _ _) h
  · rwa [if_neg hn]

theorem truncate_length (n : Int) (l : List Row) (hn : 0 ≤ n) :
    (truncate n l).length ≤ n.toNat := by
  rw [truncate, if_pos hn]
  exact List.length_take_le _ _

theorem status_case_filters (r : Row) (hst : r.getD 1 "" ∈ STATUS_ALLOWED) :
    (([STATUS_OPEN, STATUS_ACCEPTED].contains (r.getD 1 "") &&
        isKept true r)
      = decide (r.getD 1 "" = STATUS_OPEN ∨
          r.getD 1 "" = STATUS_ACCEPTED)) ∧
    (([STATUS_COMPLETED, STATUS_CANCELLED].contains (r.getD 1 "") &&
        isKept true r) = false) ∧
    (isTarget true r = decide (r.getD 1 "" = STATUS_COMPLETED ∨
        r.getD 1 "" = STATUS_CANCELLED)) := by
  simp only [STATUS_ALLOWED, List.mem_cons, List.not_mem_nil,
    or_false] at hst
  rcases hst with h | h | h | h <;> simp only [isKept] <;>
    rw [isTarget_eq, h] <;> decide

/-- C7: `recent` returns in `in_progress` exactly the active records with
status OPEN or ACCEPTED, stably sorted by `created_ts` descending, and in
`completed` the archive records together with the active records whose
status is COMPLETED or CANCELLED, stably sorted descending by the first
non-empty of `completed_ts`, `accepted_ts`, `created_ts`; each list is
truncated to a non-negative limit (a negative limit means unlimited), and
records with equal sort keys keep their original order (the stability
conjuncts). -/
theorem recent_view (s : MemState) (data : List Row) (na nc : Int)
    (hs : s.active = HEADERS :: data)
    (hwf : ∀ r ∈ data, r.length = 14)
    (hst : ∀ r ∈ data, r.getD 1 "" ∈ STATUS_ALLOWED)
    (hcne : s.completed ≠ []) :
    (recent s na nc).1.1 =
      truncate na (sortDescBy createdKey (data.filter
        (fun r => decide (r.getD 1 "" = STATUS_OPEN ∨
          r.getD 1 "" = STATUS_ACCEPTED)))) ∧
    (recent s na nc).1.2 =
      truncate nc (sortDescBy completedKey (s.completed.drop 1 ++
        data.filter (fun r => decide (r.getD 1 "" = STATUS_COMPLETED ∨
          r.getD 1 "" = STATUS_CANCELLED)))) ∧
    List.Sorted (keyRel createdKey) (recent s na nc).1.1 ∧
    List.Sorted (keyRel completedKey) (recent s na nc).1.2 ∧
    (0 ≤ na → (recent s na nc).1.1.length ≤ na.toNat) ∧
    (0 ≤ nc → (recent s na nc).1.2.length ≤ nc.toNat) ∧
    (∀ v, (sortDescBy createdKey (data.filter
        (fun r => decide (r.getD 1 "" = STATUS_OPEN ∨
          r.getD 1 "" = STATUS_ACCEPTED)))).filter
          (fun r => createdKey r = v)
      = (data.filter (fun r => decide (r.getD 1 "" = STATUS_OPEN ∨
          r.getD 1 "" = STATUS_ACCEPTED))).filter
          (fun r => createdKey r = v)) ∧
    (∀ v, (sortDescBy completedKey (s.completed.drop 1 ++
        data.filter (fun r => decide (r.getD 1 "" = STATUS_COMPLETED ∨
          r.getD 1 "" = STATUS_CANCELLED)))).filter
          (fun r => completedKey r = v)
      = (s.completed.drop 1 ++ data.filter
          (fun r => decide (r.getD 1 "" = STATUS_COMPLETED ∨
            r.getD 1 "" = STATUS_CANCELLED))).filter
          (fun r => completedKey r = v)) := by
  have hmapn := map_normRow_of_wf (data.filter (isTarget true))
    (fun r hr => hwf r (List.mem_of_mem_filter hr))
  have hsw2 : sweepState s = ⟨HEADERS :: data.filter (isKept true),
      s.completed ++ data.filter (isTarget true)⟩ := by
    rw [sweepState_eq s HEADERS data hs, hmapn]
  have hip : (data.filter (isKept true)).filter
      (fun r => [STATUS_OPEN, STATUS_ACCEPTED].contains (r.getD 1 ""))
      = data.filter (fun r => decide (r.getD 1 "" = STATUS_OPEN ∨
          r.getD 1 "" = STATUS_ACCEPTED)) := by
    rw [List.filter_filter]
    exact List.filter_congr (fun r hr => (status_case_filters r (hst r hr)).1)
  have hlin : (data.filter (isKept true)).filter
      (fun r => [STATUS_COMPLETED, STATUS_CANCELLED].contains (r.getD 1 ""))
      = [] := by
    rw [List.filter_filter,
      List.filter_congr (fun r hr => (status_case_filters r (hst r hr)).2.1)]
    exact List.filter_false _
  have htgt : data.filter (isTarget true)
      = data.filter (fun r => decide (r.getD 1 "" = STATUS_COMPLETED ∨
          r.getD 1 "" = STATUS_CANCELLED)) :=
    List.filter_congr (fun r hr => (status_case_filters r (hst r hr)).2.2)
  have hva : (recent s na nc).1.1 =
      truncate na (sortDescBy createdKey (data.filter
        (fun r => decide (r.getD 1 "" = STATUS_OPEN ∨
          r.getD 1 "" = STATUS_ACCEPTED)))) := by
    simp only [recent, hsw2, read_active_all, read_completed_all,
      List.drop_succ_cons, List.drop_zero]
    rw [hip]
  have hvc : (recent s na nc).1.2 =
      truncate nc (sortDescBy completedKey (s.completed.drop 1 ++
        data.filter (fun r => decide (r.getD 1 "" = STATUS_COMPLETED ∨
          r.getD 1 "" = STATUS_CANCELLED)))) := by
    simp only [recent, hsw2, read_active_all, read_completed_all,
      List.drop_succ_cons, List.drop_zero]
    rw [hlin, drop_one_append _ _ hcne, htgt]
    simp
  refine ⟨hva, hvc, ?_, ?_, ?_, ?_, fun v => sortDescBy_stable _ _ v,
    fun v => sortDescBy_stable _ _ v⟩
  · rw [hva]
    exact truncate_sorted _ na _ (sortDescBy_sorted _ _)
  · rw [hvc]
    exact truncate_sorted _ nc _ (sortDescBy_sorted _ _)
  · intro h
    rw [hva]
    exact truncate_length na _ h
  · intro h
    rw [hvc]
    exact truncate_length nc _ h

theorem recent_view_witness :
    (recent ⟨[HEADERS,
        ["r1", "OPEN", "a", "a", "u1", "D", "", "", "T1", "", "", "", "", ""],
        ["r2", "COMPLETED", "b", "b", "u1", "D", "u2", "A", "T1", "T2",
         "T3", "", "", ""]], [HEADERS]⟩ 1 1).1.1.length ≤ (1 : Int).toNat :=
  (recent_view ⟨[HEADERS,
      ["r1", "OPEN", "a", "a", "u1", "D", "", "", "T1", "", "", "", "", ""],
      ["r2", "COMPLETED", "b", "b", "u1", "D", "u2", "A", "T1", "T2", "T3",
       "", "", ""]], [HEADERS]⟩
    [["r1", "OPEN", "a", "a", "u1", "D", "", "", "T1", "", "", "", "", ""],
     ["r2", "COMPLETED", "b", "b", "u1", "D", "u2", "A", "T1", "T2", "T3",
      "", "", ""]] 1 1 rfl (by decide) (by decide)
    (by decide)).2.2.2.2.1 (by decide)

/-- C6 counterexample: the memory backend's `read_active_rows_with_indices`
returns a stored 2-value row as is, not padded with empty strings to the
schema length 14. -/
theorem read_rows_no_padding_counterexample :
    read_active_rows_with_indices ⟨[HEADERS, ["x1", "OPEN"]], [HEADERS]⟩ =
      [(2, ["x1", "OPEN"])] ∧
    (["x1", "OPEN"] : Row).length ≠ HEADERS.length := by
  refine ⟨rfl, by decide⟩

/-- C6 as amended: in the memory backend the read operation returns rows
exactly as stored (no padding or truncation at the read boundary); the
length normalization to the 14-column schema is performed by the caller,
`TradeLedger.cleanup`, which pads and truncates each row before archiving
it. -/
theorem read_rows_raw_cleanup_normalizes (s : MemState) (h : Row)
    (data : List Row) (hs : s.active = h :: data) :
    (read_active_rows_with_indices s).map Prod.snd = data ∧
    (cleanup true s).2.completed =
      s.completed ++ (data.filter (isTarget true)).map normRow := by
  constructor
  · rw [read_active_rows_with_indices, hs]
    exact indexRows_map_snd 2 (List.drop 1 (h :: data))
  · rw [cleanup_eq true s h data hs]

theorem read_rows_raw_cleanup_normalizes_witness :
    (read_active_rows_with_indices ⟨[HEADERS, ["x1", "COMPLETED"]],
        [HEADERS]⟩).map Prod.snd = [["x1", "COMPLETED"]] ∧
    (cleanup true ⟨[HEADERS, ["x1", "COMPLETED"]], [HEADERS]⟩).2.completed =
      [HEADERS] ++ ([["x1", "COMPLETED"]].filter (isTarget true)).map normRow :=
  read_rows_raw_cleanup_normalizes
    ⟨[HEADERS, ["x1", "COMPLETED"]], [HEADERS]⟩ HEADERS
    [["x1", "COMPLETED"]] rfl

/-- C8 counterexample: `offer` with non-positive quantity is not free of
side effects — the sweep that runs before the quantity check moves the
lingering COMPLETED row out of the active table, so the tables differ from
their state at the start of the call even though the call raises. -/
theorem offer_invalid_side_effect_counterexample :
    (offer ⟨[HEADERS, ["z1", "COMPLETED"]], [HEADERS]⟩
      "u" "n" "item" 0 "" "" "" "0123456789" "T").1 = none ∧
    (offer ⟨[HEADERS, ["z1", "COMPLETED"]], [HEADERS]⟩
      "u" "n" "item" 0 "" "" "" "0123456789" "T").2 ≠
      ⟨[HEADERS, ["z1", "COMPLETED"]], [HEADERS]⟩ := by
  refine ⟨rfl, by decide⟩

/-- C8 as amended: `offer` with `qty ≤ 0` raises `ValueError`
synchronously and appends nothing; the only state change is the initial
sweep (terminal active rows moved to the archive), so the tables are
unchanged from the start of the call exactly when the active table held no
terminal row. -/
theorem offer_invalid_argument (s : MemState) (h : Row) (data : List Row)
    (a b c d e f uuidStr tIso : String) (qty : Int)
    (hq : qty ≤ 0) (hs : s.active = h :: data) :
    offer s a b c qty d e f uuidStr tIso =
      (none, ⟨h :: data.filter (isKept true),
        s.completed ++ (data.filter (isTarget true)).map normRow⟩) ∧
    ((∀ r ∈ data, isTarget true r = false) →
      offer s a b c qty d e f uuidStr tIso = (none, s)) := by
  have hsw := sweepState_eq s h data hs
  constructor
  · simp [offer, hq, hsw]
  · intro hnone
    have h1 : data.filter (isKept true) = data :=
      List.filter_eq_self.mpr (fun r hr => by simp [isKept, hnone r hr])
    have h2 : data.filter (isTarget true) = [] := by
      rw [List.filter_eq_nil_iff]
      intro r hr
      simp [hnone r hr]
    simp only [offer, hq, if_pos, hsw, h1, h2, List.map_nil, List.append_nil]
    rw [← hs]

theorem offer_invalid_argument_witness :
    offer ⟨[HEADERS, ["w1", "OPEN"]], [HEADERS]⟩
        "u" "n" "item" 0 "" "" "" "0123456789" "T" =
      (none, ⟨[HEADERS, ["w1", "OPEN"]], [HEADERS]⟩) :=
  (offer_invalid_argument ⟨[HEADERS, ["w1", "OPEN"]], [HEADERS]⟩ HEADERS
    [["w1", "OPEN"]] "u" "n" "item" "" "" "" "0123456789" "T" 0
    (by decide) rfl).2 (by decide)

theorem head?_append_of_ne_nil {α : Type} (l m : List α) (hl : l ≠ []) :
    (l ++ m).head? = l.head? := by
  cases l with
  | nil => exact absurd rfl hl
  | cons x xs => rfl

theorem active_shape_of_intact (s : MemState) (h : headersIntact s) :
    ∃ d, s.active = HEADERS :: d := by
  obtain ⟨ha, _⟩ := h
  cases hsa : s.active with
  | nil => rw [hsa] at ha; simp at ha
  | cons x xs =>
    rw [hsa] at ha
    simp only [List.head?_cons, Option.some.injEq] at ha
    exact ⟨xs, by rw [ha]⟩

theorem completed_ne_nil_of_intact (s : MemState) (h : headersIntact s) :
    s.completed ≠ [] := by
  obtain ⟨_, hc⟩ := h
  intro he
  rw [he] at hc
  simp at hc

theorem headersIntact_cleanup (s : MemState) (inc : Bool)
    (h : headersIntact s) : headersIntact (cleanup inc s).2 := by
  obtain ⟨d, hd⟩ := active_shape_of_intact s h
  rw [cleanup_eq inc s HEADERS d hd]
  refine ⟨rfl, ?_⟩
  show (s.completed ++ _).head? = some HEADERS
  rw [head?_append_of_ne_nil _ _ (completed_ne_nil_of_intact s h)]
  exact h.2

theorem headersIntact_sweep (s : MemState) (h : headersIntact s) :
    headersIntact (sweepState s) := headersIntact_cleanup s true h

theorem headersIntact_update (s : MemState) (i c : Nat) (v : String)
    (hi : 2 ≤ i) (h : headersIntact s) :
    headersIntact (update_active_cell s i c v) := by
  refine ⟨?_, h.2⟩
  show (s.active.set (i - 1) ((s.active.getD (i - 1) []).set c v)).head?
    = some HEADERS
  obtain ⟨d, hd⟩ := active_shape_of_intact s h
  have h1 : i - 1 = (i - 2) + 1 := by omega
  rw [hd, h1, List.set_cons_succ]
  rfl

theorem headersIntact_append_active (s : MemState) (row : Row)
    (h : headersIntact s) : headersIntact (append_active s row) := by
  refine ⟨?_, h.2⟩
  show (s.active ++ [row]).head? = some HEADERS
  obtain ⟨d, hd⟩ := active_shape_of_intact s h
  rw [hd]
  rfl

theorem headersIntact_append_completed (s : MemState) (row : Row)
    (h : headersIntact s) : headersIntact (append_completed s row) := by
  refine ⟨h.1, ?_⟩
  show (s.completed ++ [row]).head? = some HEADERS
  rw [head?_append_of_ne_nil _ _ (completed_ne_nil_of_intact s h)]
  exact h.2

theorem find_idx_ge_two (s : MemState) (oid : String) (i : Nat)
    (h : find_active_row_index s oid = some i) : 2 ≤ i := by
  have := find_aux_ne_one oid s.active 1 i h
  omega

theorem headersIntact_offer (s : MemState) (a b c d e f u t : String)
    (q : Int) (h : headersIntact s) :
    headersIntact (offer s a b c q d e f u t).2 := by
  have h0 := headersIntact_sweep s h
  by_cases hq : q ≤ 0
  · simp only [offer]
    rw [if_pos hq]
    exact h0
  · simp only [offer]
    rw [if_neg hq]
    exact headersIntact_sweep _ (headersIntact_append_active _ _ h0)

theorem headersIntact_accept (s : MemState) (oid x y t : String)
    (h : headersIntact s) : headersIntact (accept s oid x y t).2 := by
  have h0 := headersIntact_sweep s h
  cases hf : find_active_row_index (sweepState s) oid with
  | none => simpa only [accept, hf] using h0
  | some i =>
    have hi2 : 2 ≤ i := find_idx_ge_two _ oid i hf
    simp only [accept, hf]
    rw [if_neg (by omega : ¬ i = 0)]
    by_cases hst : (read_active_row (sweepState s) i).getD 1 ""
        ≠ STATUS_OPEN
    · rw [if_pos hst]
      exact h0
    · rw [if_neg hst]
      exact headersIntact_sweep _
        (headersIntact_update _ _ _ _ hi2
          (headersIntact_update _ _ _ _ hi2
            (headersIntact_update _ _ _ _ hi2
              (headersIntact_update _ _ _ _ hi2 h0))))

theorem headersIntact_complete (s : MemState) (oid t : String)
    (h : headersIntact s) : headersIntact (complete s oid t).2 := by
  have h0 := headersIntact_sweep s h
  cases hf : find_active_row_index (sweepState s) oid with
  | none => simpa only [complete, hf] using h0
  | some i =>
    have hi2 : 2 ≤ i := find_idx_ge_two _ oid i hf
    simp only [complete, hf]
    rw [if_neg (by omega : ¬ i = 0)]
    by_cases hst : ¬ ((read_active_row (sweepState s) i).getD 1 ""
        = STATUS_ACCEPTED ∨
        (read_active_row (sweepState s) i).getD 1 "" = STATUS_OPEN)
    · rw [if_pos hst]
      exact h0
    · rw [if_neg hst]
      exact headersIntact_sweep _
        (headersIntact_append_completed _ _
          (headersIntact_update _ _ _ _ hi2
            (headersIntact_update _ _ _ _ hi2 h0)))

theorem headersIntact_recent (s : MemState) (na nc : Int)
    (h : headersIntact s) : headersIntact (recent s na nc).2 :=
  headersIntact_sweep s h

theorem headersIntact_last (s : MemState) (n : Int)
    (h : headersIntact s) : headersIntact (last s n).2 :=
  headersIntact_sweep s h

/-- C10: every state a `TradeLedger` on the in-memory backend can reach
keeps the canonical header row at index 0 of both the active and the
archive table — no engine operation (offer, accept, complete, recent,
cleanup, last) ever modifies or deletes it. -/
theorem reachable_headers (s : MemState) (h : Reachable s) :
    s.active.head? = some HEADERS ∧ s.completed.head? = some HEADERS := by
  induction h with
  | init => exact ⟨rfl, rfl⟩
  | offer s a b c d e f u t q _ ih =>
    exact headersIntact_offer s a b c d e f u t q ih
  | accept s oid x y t _ ih => exact headersIntact_accept s oid x y t ih
  | complete s oid t _ ih => exact headersIntact_complete s oid t ih
  | recent s na nc _ ih => exact headersIntact_recent s na nc ih
  | cleanup s inc _ ih => exact headersIntact_cleanup s inc ih
  | last s n _ ih => exact headersIntact_last s n ih

theorem reachable_headers_witness :
    MemoryBackend.init.active.head? = some HEADERS ∧
    MemoryBackend.init.completed.head? = some HEADERS :=
  reachable_headers MemoryBackend.init Reachable.init

theorem cleanup_idempotent_witness :
    cleanup true (cleanup true ⟨[HEADERS, ["y1", "COMPLETED"],
        ["y2", "ACCEPTED"]], [HEADERS]⟩).2 =
      ((0, 0, (cleanup true ⟨[HEADERS, ["y1", "COMPLETED"],
        ["y2", "ACCEPTED"]], [HEADERS]⟩).2.active.length - 1),
       (cleanup true ⟨[HEADERS, ["y1", "COMPLETED"],
        ["y2", "ACCEPTED"]], [HEADERS]⟩).2) :=
  cleanup_idempotent true _ HEADERS _ rfl

end ArcTraiders
